/-
Verification development for `rst/make_api_rst.py`.

The script groups class identifiers exposed by a package into subgroups by a
naming-convention heuristic (`extract_package_subgroups`, helper
`current_subgroup`) and emits a tree of RST stub files (`generate_docs`).

The embedding below is a direct translation of the Python source:

* Python strings become `String` (identifier text is ASCII class names);
  `str.replace(pat, '')` for the fixed pattern `'Qgs'` becomes `stripQgs`
  on the character list (leftmost, non-overlapping, like Python's replace);
  the regex `^[A-Z][a-z]*` becomes a head test `Char.isUpper` followed by
  `takeWhile Char.isLower` (both are the ASCII ranges, as in Python's
  pattern on these explicit character classes).
* `OrderedDict` becomes an insertion-ordered association list
  `List (String × List String)`; `d[k] = v` becomes `odSet` (update in
  place when the key exists, append otherwise) and `d[k].append(x)`
  becomes `odAppend`.
* The two `for` loops of `extract_package_subgroups` become `List.foldl`
  over `discovery_step` and `assignment_step`.
* `generate_docs` becomes a pure function from (package listings, template
  text, previous file system) to an optional file system, a list of
  (path, contents) pairs; `string.Template.substitute` becomes
  `substituteAux`, which returns `none` where Python raises
  (`ValueError` on an invalid `$` occurrence, `KeyError` on an unknown
  placeholder name); the destructive `rmtree` calls become `clearFS`.
-/
import Mathlib

set_option maxHeartbeats 1000000
set_option maxRecDepth 40000

/-- Module-level flag from the source: `limit = False`. -/
def limit : Bool := false

/-- Module-level constant from the source:
`class_limit = 'QgsAdvancedDigitizingCanvasItem'`. -/
def class_limit : String := "QgsAdvancedDigitizingCanvasItem"

/-- Python `class_name.replace('Qgs', '')`: delete every leftmost,
non-overlapping occurrence of the three characters `Qgs`. -/
def stripQgs : List Char → List Char
  | 'Q' :: 'g' :: 's' :: rest => stripQgs rest
  | c :: rest => c :: stripQgs rest
  | [] => []

/-- Translation of `current_subgroup(class_name)`: strip every occurrence of
`'Qgs'`, then match the regex `^[A-Z][a-z]*`; on match failure the Python
code catches `AttributeError` and returns `None`. -/
def current_subgroup (class_name : String) : Option String :=
  match stripQgs class_name.data with
  | first :: rest =>
      if first.isUpper then some ⟨first :: rest.takeWhile Char.isLower⟩ else none
  | [] => none

/-- Keys of an insertion-ordered association list (`OrderedDict.keys()`). -/
def odKeys (d : List (String × List String)) : List String :=
  d.map Prod.fst

/-- `OrderedDict` assignment `d[k] = v`: overwrite in place when the key is
present, append a new pair otherwise. -/
def odSet (d : List (String × List String)) (k : String) (v : List String) :
    List (String × List String) :=
  if k ∈ odKeys d then d.map (fun p => if p.1 = k then (k, v) else p)
  else d ++ [(k, v)]

/-- `d[k].append(x)`: append `x` to the member list stored under key `k`. -/
def odAppend (d : List (String × List String)) (k : String) (x : String) :
    List (String × List String) :=
  d.map (fun p => if p.1 = k then (p.1, p.2 ++ [x]) else p)

/-- State of the first (`candidate discovery`) loop of
`extract_package_subgroups`: the `candidates` list, the `subgroups` list and
the `result` ordered dictionary. -/
abbrev DiscState := List String × List String × List (String × List String)

/-- One iteration of the first loop of `extract_package_subgroups`. -/
def discovery_step (st : DiscState) (class_name : String) : DiscState :=
  if limit && !(class_limit.isPrefixOf class_name) then st
  else if class_name.data.take 3 ≠ ['Q', 'g', 's'] then st
  else
    match current_subgroup class_name with
    | none => st
    | some subgroup =>
      match st with
      | (candidates, subgroups, result) =>
        if subgroup ∉ candidates then (candidates ++ [subgroup], subgroups, result)
        else if subgroup ∉ subgroups then
          (candidates, subgroups ++ [subgroup], odSet result subgroup [])
        else (candidates, subgroups, result)

/-- One iteration of the second (`assignment`) loop of
`extract_package_subgroups`. -/
def assignment_step (result : List (String × List String)) (class_name : String) :
    List (String × List String) :=
  if limit && !(class_limit.isPrefixOf class_name) then result
  else if class_name.data.take 3 ≠ ['Q', 'g', 's'] then result
  else
    match current_subgroup class_name with
    | none => result
    | some subgroup =>
      if subgroup ∈ odKeys result then odAppend result subgroup class_name
      else odAppend result "other" class_name

/-- Translation of `extract_package_subgroups`, parameterised by the
identifier listing `classes = dir(package)` supplied by introspection.
The Python `subgroups.append('other')` is omitted: `subgroups` is dead after
that point; the `result['other'] = []` assignment is kept (`odSet`). -/
def extract_package_subgroups (classes : List String) : List (String × List String) :=
  let st := classes.foldl discovery_step ([], [], [])
  let result := odSet st.2.2 "other" []
  classes.foldl assignment_step result

/-- Eligibility-and-token composite used by the proofs: the value of
`current_subgroup class_name` provided the identifier passes the `limit`
filter and the `Qgs` prefix filter, `none` otherwise.  Both loops of
`extract_package_subgroups` apply exactly these three guards in this order. -/
def classToken (class_name : String) : Option String :=
  if limit && !(class_limit.isPrefixOf class_name) then none
  else if class_name.data.take 3 ≠ ['Q', 'g', 's'] then none
  else current_subgroup class_name

/-- Multiset of derived tokens of a listing, in listing order. -/
def tokensOf (classes : List String) : List String :=
  classes.filterMap classToken

/-- Token derivation as claim C1 states it: remove the 3-character sentinel
prefix from the identifier (drop its first three characters) and take the
longest leading run matching `[A-Z][a-z]*`. -/
def claimedSubgroupToken (class_name : String) : Option String :=
  match class_name.data.drop 3 with
  | first :: rest =>
      if first.isUpper then some ⟨first :: rest.takeWhile Char.isLower⟩ else none
  | [] => none

/-- Token derivation as the amended claim C1 states it: remove every
occurrence of the sentinel `'Qgs'` from the identifier and take the longest
leading run matching `[A-Z][a-z]*`. -/
def amendedSubgroupToken (class_name : String) : Option String :=
  match stripQgs class_name.data with
  | first :: rest =>
      if first.isUpper then some ⟨first :: rest.takeWhile Char.isLower⟩ else none
  | [] => none

example : current_subgroup "QgsComposerStyle" = some "Composer" := by decide
example : current_subgroup "QgsQgsAbc" = some "Abc" := by decide
example : claimedSubgroupToken "QgsQgsAbc" = some "Qgs" := by decide
example : extract_package_subgroups ["QgsComposerItem", "QgsComposerView", "QgsRasterLayer"] =
    [("Composer", ["QgsComposerItem", "QgsComposerView"]), ("other", ["QgsRasterLayer"])] := by
  decide
example : extract_package_subgroups [] = [("other", [])] := by decide
example : extract_package_subgroups ["QgsAbc", "QgsAbc"] =
    [("Abc", ["QgsAbc", "QgsAbc"]), ("other", [])] := by decide

/-! ### Basic facts about the helpers -/

theorem odKeys_append (d₁ d₂ : List (String × List String)) :
    odKeys (d₁ ++ d₂) = odKeys d₁ ++ odKeys d₂ :=
  List.map_append _ _ _

theorem odSet_of_not_mem {d : List (String × List String)} {k : String}
    (v : List String) (h : k ∉ odKeys d) : odSet d k v = d ++ [(k, v)] := by
  simp [odSet, h]

theorem odKeys_odAppend (d : List (String × List String)) (k x : String) :
    odKeys (odAppend d k x) = odKeys d := by
  simp only [odKeys, odAppend, List.map_map]
  refine List.map_congr_left fun p _ => ?_
  by_cases hp : p.1 = k <;> simp [hp]

/-- `discovery_step` rephrased through `classToken`: the three guards of the
loop body are exactly the three guards of `classToken`. -/
theorem discovery_step_eq (st : DiscState) (c : String) :
    discovery_step st c =
      match classToken c with
      | none => st
      | some subgroup =>
        match st with
        | (candidates, subgroups, result) =>
          if subgroup ∉ candidates then (candidates ++ [subgroup], subgroups, result)
          else if subgroup ∉ subgroups then
            (candidates, subgroups ++ [subgroup], odSet result subgroup [])
          else (candidates, subgroups, result) := by
  unfold discovery_step classToken
  by_cases h1 : (limit && !(class_limit.isPrefixOf c)) = true
  · simp [h1]
  · simp only [Bool.not_eq_true] at h1
    by_cases h2 : c.data.take 3 ≠ ['Q', 'g', 's']
    · simp [h1, h2]
    · cases h3 : current_subgroup c <;> simp [h1, h2, h3]

/-- `assignment_step` rephrased through `classToken`. -/
theorem assignment_step_eq (d : List (String × List String)) (c : String) :
    assignment_step d c =
      match classToken c with
      | none => d
      | some subgroup =>
        if subgroup ∈ odKeys d then odAppend d subgroup c
        else odAppend d "other" c := by
  unfold assignment_step classToken
  by_cases h1 : (limit && !(class_limit.isPrefixOf c)) = true
  · simp [h1]
  · simp only [Bool.not_eq_true] at h1
    by_cases h2 : c.data.take 3 ≠ ['Q', 'g', 's']
    · simp [h1, h2]
    · cases h3 : current_subgroup c <;> simp [h1, h2, h3]

theorem classToken_some {c t : String} (h : classToken c = some t) :
    current_subgroup c = some t ∧ c.data.take 3 = ['Q', 'g', 's'] := by
  unfold classToken at h
  split at h
  · simp at h
  · split at h
    · simp at h
    · rename_i h3
      exact ⟨h, not_not.mp h3⟩

theorem current_subgroup_shape {c t : String} (h : current_subgroup c = some t) :
    ∃ first rest, t = ⟨first :: rest⟩ ∧ first.isUpper = true := by
  unfold current_subgroup at h
  split at h
  · rename_i first rest heq
    split at h
    · rename_i hup
      exact ⟨first, rest.takeWhile Char.isLower, (Option.some_inj.mp h).symm, hup⟩
    · simp at h
  · simp at h

theorem classToken_ne_other {c t : String} (h : classToken c = some t) : t ≠ "other" := by
  obtain ⟨hcs, -⟩ := classToken_some h
  obtain ⟨first, rest, ht, hup⟩ := current_subgroup_shape hcs
  intro he
  have hd : first :: rest = ("other" : String).data := by rw [← he, ht]
  have hfirst : first = 'o' := by
    have hd' : first :: rest = ['o', 't', 'h', 'e', 'r'] := hd
    injection hd' with h1 h2
  rw [hfirst] at hup
  exact absurd hup (by decide)

theorem tokensOf_ne_other {classes : List String} {t : String}
    (h : t ∈ tokensOf classes) : t ≠ "other" := by
  obtain ⟨c, -, hc⟩ := List.mem_filterMap.mp h
  exact classToken_ne_other hc

/-- Exact characterisation of the state after the discovery pass:
`candidates` holds exactly the tokens occurring in the listing, `subgroups`
holds exactly the tokens occurring at least twice, the keys of `result` are
`subgroups` itself, every promoted member list is still empty, and
`subgroups` is duplicate-free. -/
theorem discovery_invariant (classes : List String) :
    (∀ t, t ∈ (classes.foldl discovery_step ([], [], [])).1 ↔ t ∈ tokensOf classes) ∧
    (∀ t, t ∈ (classes.foldl discovery_step ([], [], [])).2.1 ↔
        2 ≤ (tokensOf classes).count t) ∧
    odKeys (classes.foldl discovery_step ([], [], [])).2.2 =
      (classes.foldl discovery_step ([], [], [])).2.1 ∧
    (∀ p ∈ (classes.foldl discovery_step ([], [], [])).2.2, p.2 = ([] : List String)) ∧
    (classes.foldl discovery_step ([], [], [])).2.1.Nodup := by
  induction classes using List.reverseRecOn with
  | nil => simp [tokensOf, odKeys]
  | append_singleton l c ih =>
    obtain ⟨h1, h2, h3, h4, h5⟩ := ih
    rcases hst : l.foldl discovery_step ([], [], []) with ⟨cands, subs, res⟩
    rw [hst] at h1 h2 h3 h4 h5
    simp only at h1 h2 h3 h4 h5
    rw [List.foldl_append, hst]
    simp only [List.foldl_cons, List.foldl_nil]
    rw [discovery_step_eq]
    cases hc : classToken c with
    | none =>
      have htok : tokensOf (l ++ [c]) = tokensOf l := by
        simp [tokensOf, List.filterMap_append, List.filterMap_cons, hc]
      rw [htok]
      exact ⟨h1, h2, h3, h4, h5⟩
    | some t =>
      have htok : tokensOf (l ++ [c]) = tokensOf l ++ [t] := by
        simp [tokensOf, List.filterMap_append, List.filterMap_cons, hc]
      rw [htok]
      by_cases hc1 : t ∈ cands
      · by_cases hc2 : t ∈ subs
        · simp only [hc1, not_true_eq_false, if_false, hc2]
          refine ⟨?_, ?_, h3, h4, h5⟩
          · intro x
            simp only [List.mem_append, List.mem_singleton]
            constructor
            · intro hx; exact Or.inl ((h1 x).mp hx)
            · rintro (hx | rfl)
              · exact (h1 x).mpr hx
              · exact hc1
          · intro x
            rw [List.count_append]
            by_cases hx : x = t
            · subst hx
              have hn2 : 2 ≤ (tokensOf l).count x := (h2 x).mp hc2
              have hcnt : List.count x [x] = 1 := by simp
              rw [hcnt]
              constructor
              · intro _; omega
              · intro _; exact hc2
            · have hcnt : List.count x [t] = 0 := by simp [hx]
              rw [hcnt, Nat.add_zero]
              exact h2 x
        · simp only [hc1, not_true_eq_false, if_false, hc2, not_false_eq_true, if_true]
          have hkeys : t ∉ odKeys res := h3 ▸ hc2
          rw [odSet_of_not_mem _ hkeys]
          have hn1 : 1 ≤ (tokensOf l).count t := List.count_pos_iff.mpr ((h1 t).mp hc1)
          have hn2 : ¬ (2 ≤ (tokensOf l).count t) := fun hh => hc2 ((h2 t).mpr hh)
          refine ⟨?_, ?_, ?_, ?_, ?_⟩
          · intro x
            simp only [List.mem_append, List.mem_singleton]
            constructor
            · intro hx; exact Or.inl ((h1 x).mp hx)
            · rintro (hx | rfl)
              · exact (h1 x).mpr hx
              · exact hc1
          · intro x
            rw [List.count_append]
            simp only [List.mem_append, List.mem_singleton]
            by_cases hx : x = t
            · subst hx
              have hcnt : List.count x [x] = 1 := by simp
              rw [hcnt]
              constructor
              · intro _; omega
              · intro _; exact Or.inr rfl
            · have hcnt : List.count x [t] = 0 := by simp [hx]
              rw [hcnt, Nat.add_zero]
              constructor
              · rintro (hxs | hxt)
                · exact (h2 x).mp hxs
                · exact absurd hxt hx
              · intro hh; exact Or.inl ((h2 x).mpr hh)
          · rw [odKeys_append, h3]
            rfl
          · intro p hp
            rcases List.mem_append.mp hp with hp | hp
            · exact h4 p hp
            · rw [List.mem_singleton.mp hp]
          · simp [List.nodup_append, h5, hc2]
      · simp only [hc1, not_false_eq_true, if_true]
        have hn0 : (tokensOf l).count t = 0 :=
          List.count_eq_zero.mpr (fun hmem => hc1 ((h1 t).mpr hmem))
        refine ⟨?_, ?_, h3, h4, h5⟩
        · intro x
          simp only [List.mem_append, List.mem_singleton]
          constructor
          · rintro (hx | rfl)
            · exact Or.inl ((h1 x).mp hx)
            · exact Or.inr rfl
          · rintro (hx | rfl)
            · exact Or.inl ((h1 x).mpr hx)
            · exact Or.inr rfl
        · intro x
          rw [List.count_append]
          by_cases hx : x = t
          · subst hx
            have hcnt : List.count x [x] = 1 := by simp
            rw [hcnt]
            constructor
            · intro hxs
              have := (h2 x).mp hxs
              omega
            · intro hh; omega
          · have hcnt : List.count x [t] = 0 := by simp [hx]
            rw [hcnt, Nat.add_zero]
            exact h2 x

/-! ### The assignment pass -/

/-- The key an eligible identifier is appended under during the assignment
pass, given the key set `K` of the result dictionary: its token when the
token was promoted, the catch-all `"other"` otherwise; `none` when the
identifier is filtered out. -/
def assignedKey (K : List String) (c : String) : Option String :=
  (classToken c).map (fun t => if t ∈ K then t else "other")

theorem odKeys_map_snd (d : List (String × List String))
    (g : String × List String → List String) :
    odKeys (d.map (fun p => (p.1, g p))) = odKeys d := by
  simp only [odKeys, List.map_map]
  exact List.map_congr_left fun p _ => rfl

theorem assignedKey_none {K : List String} {c : String} :
    assignedKey K c = none ↔ classToken c = none := by
  simp [assignedKey]

theorem assignment_step_of_none {d : List (String × List String)} {c : String}
    (h : classToken c = none) : assignment_step d c = d := by
  rw [assignment_step_eq, h]

theorem assignment_step_of_some {d : List (String × List String)} {c t : String}
    (h : classToken c = some t) :
    assignment_step d c =
      if t ∈ odKeys d then odAppend d t c else odAppend d "other" c := by
  rw [assignment_step_eq, h]

theorem assignedKey_some {K : List String} {c t : String} (h : classToken c = some t) :
    assignedKey K c = some (if t ∈ K then t else "other") := by
  simp [assignedKey, h]

/-- Running the whole assignment pass over a dictionary appends to every
entry, in listing order, exactly the identifiers assigned to its key. -/
theorem assignment_foldl (classes : List String) (d₀ : List (String × List String)) :
    classes.foldl assignment_step d₀ =
      d₀.map (fun p => (p.1, p.2 ++ classes.filter
        (fun c => assignedKey (odKeys d₀) c == some p.1))) := by
  induction classes using List.reverseRecOn with
  | nil => simp
  | append_singleton l c ih =>
    rw [List.foldl_append]
    simp only [List.foldl_cons, List.foldl_nil]
    cases hc : classToken c with
    | none =>
      have hak : assignedKey (odKeys d₀) c = none := assignedKey_none.mpr hc
      rw [assignment_step_of_none hc, ih]
      refine List.map_congr_left fun (p : String × List String) _ => ?_
      simp [List.filter_append, hak]
    | some t =>
      have hkeys : odKeys (d₀.map (fun p => (p.1, p.2 ++ l.filter
          (fun c => assignedKey (odKeys d₀) c == some p.1)))) = odKeys d₀ :=
        odKeys_map_snd _ _
      rw [assignment_step_of_some hc, ih, hkeys]
      by_cases hmem : t ∈ odKeys d₀
      · have hak : assignedKey (odKeys d₀) c = some t := by
          rw [assignedKey_some hc, if_pos hmem]
        rw [if_pos hmem]
        unfold odAppend
        rw [List.map_map]
        refine List.map_congr_left fun (p : String × List String) hp => ?_
        by_cases hpk : p.1 = t
        · simp [hpk, List.filter_append, hak, List.append_assoc]
        · simp [hpk, List.filter_append, hak, Ne.symm hpk]
      · have hak : assignedKey (odKeys d₀) c = some "other" := by
          rw [assignedKey_some hc, if_neg hmem]
        rw [if_neg hmem]
        unfold odAppend
        rw [List.map_map]
        refine List.map_congr_left fun (p : String × List String) hp => ?_
        by_cases hpk : p.1 = "other"
        · simp [hpk, List.filter_append, hak, List.append_assoc]
        · simp [hpk, List.filter_append, hak, Ne.symm hpk]

/-! ### Closed form of the extraction -/

/-- The `result` dictionary as it stands at the end of the discovery pass. -/
def promotedSubgroups (classes : List String) : List (String × List String) :=
  (classes.foldl discovery_step ([], [], [])).2.2

/-- Key list of the final result: the promoted tokens followed by the
catch-all `"other"`. -/
def subgroupKeys (classes : List String) : List String :=
  odKeys (promotedSubgroups classes) ++ ["other"]

theorem other_not_promoted (classes : List String) :
    "other" ∉ odKeys (promotedSubgroups classes) := by
  obtain ⟨h1, h2, h3, h4, h5⟩ := discovery_invariant classes
  intro hmem
  rw [promotedSubgroups, h3] at hmem
  have hcnt := (h2 "other").mp hmem
  have hmem' : "other" ∈ tokensOf classes := List.count_pos_iff.mp (by omega)
  exact tokensOf_ne_other hmem' rfl

theorem subgroupKeys_eq (classes : List String) :
    odKeys (promotedSubgroups classes ++ [("other", [])]) = subgroupKeys classes := by
  rw [odKeys_append]; rfl

/-- Closed form of `extract_package_subgroups`: the result is the promoted
dictionary plus the catch-all entry, each member list being the sublist of
the listing assigned to that key. -/
theorem extract_package_subgroups_eq (classes : List String) :
    extract_package_subgroups classes =
      (promotedSubgroups classes ++ [("other", [])]).map
        (fun (p : String × List String) => (p.1, classes.filter
          (fun c => assignedKey (subgroupKeys classes) c == some p.1))) := by
  obtain ⟨h1, h2, h3, h4, h5⟩ := discovery_invariant classes
  have hset : odSet (classes.foldl discovery_step ([], [], [])).2.2 "other" [] =
      promotedSubgroups classes ++ [("other", [])] :=
    odSet_of_not_mem _ (other_not_promoted classes)
  show classes.foldl assignment_step
      (odSet (classes.foldl discovery_step ([], [], [])).2.2 "other" []) = _
  rw [hset, assignment_foldl, subgroupKeys_eq]
  refine List.map_congr_left fun (p : String × List String) hp => ?_
  have hp2 : p.2 = [] := by
    rcases List.mem_append.mp hp with hmem | hmem
    · exact h4 p hmem
    · rw [List.mem_singleton.mp hmem]
  rw [hp2, List.nil_append]

theorem odKeys_extract (classes : List String) :
    odKeys (extract_package_subgroups classes) = subgroupKeys classes := by
  rw [extract_package_subgroups_eq, odKeys_map_snd, subgroupKeys_eq]

theorem mem_subgroupKeys (classes : List String) (t : String) :
    t ∈ subgroupKeys classes ↔ 2 ≤ (tokensOf classes).count t ∨ t = "other" := by
  obtain ⟨h1, h2, h3, h4, h5⟩ := discovery_invariant classes
  unfold subgroupKeys promotedSubgroups
  rw [h3]
  simp only [List.mem_append, List.mem_singleton]
  rw [h2 t]

theorem subgroupKeys_nodup (classes : List String) : (subgroupKeys classes).Nodup := by
  obtain ⟨h1, h2, h3, h4, h5⟩ := discovery_invariant classes
  unfold subgroupKeys promotedSubgroups
  rw [h3]
  simp only [List.nodup_append, List.disjoint_singleton]
  refine ⟨h5, List.nodup_singleton _, ?_⟩
  intro hmem
  have hcnt := (h2 "other").mp hmem
  have hmem' : "other" ∈ tokensOf classes := List.count_pos_iff.mp (by omega)
  exact tokensOf_ne_other hmem' rfl

/-- Every entry of the result has a key drawn from `subgroupKeys` and the
member list assigned to that key. -/
theorem extract_entry {classes : List String} {p : String × List String}
    (hp : p ∈ extract_package_subgroups classes) :
    p.1 ∈ subgroupKeys classes ∧
    p.2 = classes.filter (fun c => assignedKey (subgroupKeys classes) c == some p.1) := by
  rw [extract_package_subgroups_eq] at hp
  obtain ⟨q, hq, hpq⟩ := List.mem_map.mp hp
  constructor
  · rw [← hpq]
    show q.1 ∈ subgroupKeys classes
    rw [← subgroupKeys_eq classes]
    exact List.mem_map.mpr ⟨q, hq, rfl⟩
  · rw [← hpq]

/-- Conversely every key of `subgroupKeys` is realised by an entry of the
result. -/
theorem extract_entry_exists {classes : List String} {k : String}
    (hk : k ∈ subgroupKeys classes) :
    ∃ p ∈ extract_package_subgroups classes, p.1 = k ∧
      p.2 = classes.filter (fun c => assignedKey (subgroupKeys classes) c == some k) := by
  rw [← subgroupKeys_eq classes] at hk
  obtain ⟨q, hq, hqk⟩ := List.mem_map.mp hk
  refine ⟨(q.1, classes.filter
      (fun c => assignedKey (subgroupKeys classes) c == some q.1)), ?_, hqk, ?_⟩
  · rw [extract_package_subgroups_eq]
    exact List.mem_map.mpr ⟨q, hq, rfl⟩
  · rw [show (q.1, classes.filter
        (fun c => assignedKey (subgroupKeys classes) c == some q.1)).2 =
        classes.filter (fun c => assignedKey (subgroupKeys classes) c == some q.1) from rfl,
      hqk]

/-- Membership in a member list of the result, unfolded. -/
theorem mem_extract_val {classes : List String} {p : String × List String}
    (hp : p ∈ extract_package_subgroups classes) {c : String} :
    c ∈ p.2 ↔ c ∈ classes ∧ assignedKey (subgroupKeys classes) c = some p.1 := by
  rw [(extract_entry hp).2, List.mem_filter]
  simp only [beq_iff_eq]

/-! ### Derived counting facts -/

theorem count_tokensOf (classes : List String) (t : String) :
    (tokensOf classes).count t =
      classes.countP (fun c => classToken c == some t) := by
  induction classes with
  | nil => simp [tokensOf]
  | cons c l ih =>
    rw [List.countP_cons]
    cases hc : classToken c with
    | none =>
      rw [tokensOf, List.filterMap_cons_none hc]
      have hbeq : ((none : Option String) == some t) = false := rfl
      rw [hbeq]
      simp only [tokensOf] at ih
      simp [ih]
    | some s =>
      rw [tokensOf, List.filterMap_cons_some hc, List.count_cons]
      have hbeq : ((some s : Option String) == some t) = (s == t) := rfl
      rw [hbeq]
      simp only [tokensOf] at ih
      omega

/-- The emitter's prefix re-check, `class_name[0:3] != 'Qgs'`, as a Boolean
predicate on identifiers. -/
def hasQgsPrefix (class_name : String) : Bool :=
  class_name.data.take 3 == ['Q', 'g', 's']

theorem mem_extract_sentinel {classes : List String} {p : String × List String}
    (hp : p ∈ extract_package_subgroups classes) {m : String} (hm : m ∈ p.2) :
    m.data.take 3 = ['Q', 'g', 's'] := by
  rw [mem_extract_val hp] at hm
  obtain ⟨-, hak⟩ := hm
  cases hct : classToken m with
  | none => rw [assignedKey, hct] at hak; simp at hak
  | some t => exact (classToken_some hct).2

/-! ### Claims C1 to C8 and C10 -/

/-- Claim C1, counterexample: for the sentinel-prefixed identifier
`"QgsQgsAbc"` the token actually used for clustering is `"Abc"` (the code
removes every occurrence of `'Qgs'`), not the `"Qgs"` demanded by the claim
(remove only the prefix); clustering observably follows the former: with a
second `Abc`-identifier present, `"QgsQgsAbc"` lands in the dedicated
subgroup `"Abc"`. -/
theorem claim_C1_counterexample :
    "QgsQgsAbc".data.take 3 = ['Q', 'g', 's'] ∧
    claimedSubgroupToken "QgsQgsAbc" = some "Qgs" ∧
    current_subgroup "QgsQgsAbc" = some "Abc" ∧
    current_subgroup "QgsQgsAbc" ≠ claimedSubgroupToken "QgsQgsAbc" ∧
    extract_package_subgroups ["QgsQgsAbc", "QgsAbc"] =
      [("Abc", ["QgsQgsAbc", "QgsAbc"]), ("other", [])] := by
  decide

/-- Claim C1 as amended: for every sentinel-prefixed identifier the subgroup
token used for clustering is the longest leading `[A-Z][a-z]*` run of the
string obtained by removing every occurrence of `'Qgs'` from the identifier;
when no such run exists the identifier is excluded from every subgroup of
the result, including the catch-all. -/
theorem claim_C1_amended (classes : List String) (c : String) (hc : c ∈ classes)
    (hpre : c.data.take 3 = ['Q', 'g', 's']) :
    current_subgroup c = amendedSubgroupToken c ∧
    (current_subgroup c = none →
      ∀ p ∈ extract_package_subgroups classes, c ∉ p.2) := by
  refine ⟨rfl, ?_⟩
  intro hnone p hp hmem
  rw [mem_extract_val hp] at hmem
  obtain ⟨-, hak⟩ := hmem
  cases hct : classToken c with
  | none => rw [assignedKey, hct] at hak; simp at hak
  | some t =>
    have hcs := (classToken_some hct).1
    rw [hnone] at hcs
    simp at hcs

theorem claim_C1_amended_witness :
    ("Qgsx" ∈ ["Qgsx"] ∧ "Qgsx".data.take 3 = ['Q', 'g', 's']) ∧
    (current_subgroup "Qgsx" = amendedSubgroupToken "Qgsx" ∧
     (current_subgroup "Qgsx" = none →
       ∀ p ∈ extract_package_subgroups ["Qgsx"], "Qgsx" ∉ p.2)) :=
  ⟨⟨by decide, by decide⟩, claim_C1_amended ["Qgsx"] "Qgsx" (by decide) (by decide)⟩

/-- Claim C2: an eligible identifier whose derived token occurs exactly once
across the listing is placed in the catch-all subgroup `"other"` and in no
dedicated subgroup. -/
theorem claim_C2_singleton_lands_in_other (classes : List String) (c t : String)
    (hc : c ∈ classes) (ht : classToken c = some t)
    (hcount : (tokensOf classes).count t = 1) :
    (∃ p ∈ extract_package_subgroups classes, p.1 = "other" ∧ c ∈ p.2) ∧
    (∀ p ∈ extract_package_subgroups classes, p.1 ≠ "other" → c ∉ p.2) := by
  have htne : t ≠ "other" := classToken_ne_other ht
  have htK : t ∉ subgroupKeys classes := by
    rw [mem_subgroupKeys]
    rintro (hcnt | heq)
    · omega
    · exact htne heq
  have hak : assignedKey (subgroupKeys classes) c = some "other" := by
    rw [assignedKey_some ht, if_neg htK]
  have hoK : "other" ∈ subgroupKeys classes := (mem_subgroupKeys _ _).mpr (Or.inr rfl)
  constructor
  · obtain ⟨p, hp, hpk, -⟩ := extract_entry_exists hoK
    refine ⟨p, hp, hpk, ?_⟩
    rw [mem_extract_val hp]
    exact ⟨hc, by rw [hak, hpk]⟩
  · intro p hp hne hmem
    rw [mem_extract_val hp] at hmem
    obtain ⟨-, hak'⟩ := hmem
    rw [hak] at hak'
    exact hne (Option.some_inj.mp hak').symm

theorem claim_C2_witness :
    ("QgsAbc" ∈ ["QgsAbc"] ∧ classToken "QgsAbc" = some "Abc" ∧
      (tokensOf ["QgsAbc"]).count "Abc" = 1) ∧
    ((∃ p ∈ extract_package_subgroups ["QgsAbc"], p.1 = "other" ∧ "QgsAbc" ∈ p.2) ∧
     (∀ p ∈ extract_package_subgroups ["QgsAbc"], p.1 ≠ "other" → "QgsAbc" ∉ p.2)) :=
  ⟨⟨by decide, by decide, by decide⟩,
    claim_C2_singleton_lands_in_other ["QgsAbc"] "QgsAbc" "Abc"
      (by decide) (by decide) (by decide)⟩

/-- Claim C3: an eligible identifier whose derived token occurs at least
twice is placed in the dedicated subgroup labelled by the token, which is a
key of the result; and the listing `[QgsComposerItem, QgsComposerView,
QgsRasterLayer]` extracts to exactly `Composer ↦ [QgsComposerItem,
QgsComposerView]`, `other ↦ [QgsRasterLayer]`. -/
theorem claim_C3_promoted_dedicated (classes : List String) (c t : String)
    (hc : c ∈ classes) (ht : classToken c = some t)
    (hcount : 2 ≤ (tokensOf classes).count t) :
    (t ∈ odKeys (extract_package_subgroups classes) ∧
     ∃ p ∈ extract_package_subgroups classes, p.1 = t ∧ c ∈ p.2) ∧
    extract_package_subgroups ["QgsComposerItem", "QgsComposerView", "QgsRasterLayer"] =
      [("Composer", ["QgsComposerItem", "QgsComposerView"]),
       ("other", ["QgsRasterLayer"])] := by
  refine ⟨?_, by decide⟩
  have htK : t ∈ subgroupKeys classes := (mem_subgroupKeys _ _).mpr (Or.inl hcount)
  have hak : assignedKey (subgroupKeys classes) c = some t := by
    rw [assignedKey_some ht, if_pos htK]
  refine ⟨by rw [odKeys_extract]; exact htK, ?_⟩
  obtain ⟨p, hp, hpk, -⟩ := extract_entry_exists htK
  refine ⟨p, hp, hpk, ?_⟩
  rw [mem_extract_val hp]
  exact ⟨hc, by rw [hak, hpk]⟩

theorem claim_C3_witness :
    ("QgsComposerItem" ∈ ["QgsComposerItem", "QgsComposerView", "QgsRasterLayer"] ∧
      classToken "QgsComposerItem" = some "Composer" ∧
      2 ≤ (tokensOf ["QgsComposerItem", "QgsComposerView", "QgsRasterLayer"]).count
        "Composer") ∧
    (("Composer" ∈ odKeys (extract_package_subgroups
        ["QgsComposerItem", "QgsComposerView", "QgsRasterLayer"]) ∧
      ∃ p ∈ extract_package_subgroups
        ["QgsComposerItem", "QgsComposerView", "QgsRasterLayer"],
        p.1 = "Composer" ∧ "QgsComposerItem" ∈ p.2) ∧
     extract_package_subgroups ["QgsComposerItem", "QgsComposerView", "QgsRasterLayer"] =
       [("Composer", ["QgsComposerItem", "QgsComposerView"]),
        ("other", ["QgsRasterLayer"])]) :=
  ⟨⟨by decide, by decide, by decide⟩,
    claim_C3_promoted_dedicated
      ["QgsComposerItem", "QgsComposerView", "QgsRasterLayer"]
      "QgsComposerItem" "Composer" (by decide) (by decide) (by decide)⟩

/-- Claim C4: no identifier appears in the member lists of two subgroups
with distinct labels. -/
theorem claim_C4_no_duplication_across_subgroups (classes : List String)
    (c : String) (p q : String × List String)
    (hp : p ∈ extract_package_subgroups classes)
    (hq : q ∈ extract_package_subgroups classes)
    (hne : p.1 ≠ q.1) : ¬ (c ∈ p.2 ∧ c ∈ q.2) := by
  rintro ⟨hcp, hcq⟩
  rw [mem_extract_val hp] at hcp
  rw [mem_extract_val hq] at hcq
  exact hne (Option.some_inj.mp (hcp.2.symm.trans hcq.2))

theorem claim_C4_witness :
    (("Composer", ["QgsComposerItem", "QgsComposerView"]) ∈
        extract_package_subgroups
          ["QgsComposerItem", "QgsComposerView", "QgsRasterLayer"] ∧
     ("other", ["QgsRasterLayer"]) ∈
        extract_package_subgroups
          ["QgsComposerItem", "QgsComposerView", "QgsRasterLayer"] ∧
     ("Composer", ["QgsComposerItem", "QgsComposerView"]).1 ≠
        ("other", ["QgsRasterLayer"]).1) ∧
    ¬ ("QgsComposerItem" ∈ ("Composer", ["QgsComposerItem", "QgsComposerView"]).2 ∧
       "QgsComposerItem" ∈ ("other", ["QgsRasterLayer"]).2) :=
  ⟨⟨by decide, by decide, by decide⟩,
    claim_C4_no_duplication_across_subgroups
      ["QgsComposerItem", "QgsComposerView", "QgsRasterLayer"] "QgsComposerItem"
      ("Composer", ["QgsComposerItem", "QgsComposerView"])
      ("other", ["QgsRasterLayer"]) (by decide) (by decide) (by decide)⟩

/-- Claim C5, counterexample: on a listing containing the same identifier
twice, the result contains a member list that is not duplicate-free, so the
claim fails for arbitrary identifier lists. -/
theorem claim_C5_counterexample :
    ("Abc", ["QgsAbc", "QgsAbc"]) ∈ extract_package_subgroups ["QgsAbc", "QgsAbc"] ∧
    ¬ (["QgsAbc", "QgsAbc"] : List String).Nodup := by
  decide

/-- Claim C5 as amended: for every duplicate-free identifier list, every
member list of the result is duplicate-free and lists its members in
first-discovery order, i.e. it is a sublist of the listing. -/
theorem claim_C5_amended (classes : List String) (hnd : classes.Nodup)
    (p : String × List String) (hp : p ∈ extract_package_subgroups classes) :
    p.2.Nodup ∧ p.2.Sublist classes := by
  rw [(extract_entry hp).2]
  exact ⟨List.Nodup.sublist (List.filter_sublist classes) hnd,
    List.filter_sublist classes⟩

theorem claim_C5_witness :
    ((["QgsComposerItem", "QgsComposerView", "QgsRasterLayer"] : List String).Nodup ∧
     ("Composer", ["QgsComposerItem", "QgsComposerView"]) ∈
       extract_package_subgroups
         ["QgsComposerItem", "QgsComposerView", "QgsRasterLayer"]) ∧
    ((["QgsComposerItem", "QgsComposerView"] : List String).Nodup ∧
     (["QgsComposerItem", "QgsComposerView"] : List String).Sublist
       ["QgsComposerItem", "QgsComposerView", "QgsRasterLayer"]) :=
  ⟨⟨by decide, by decide⟩,
    claim_C5_amended ["QgsComposerItem", "QgsComposerView", "QgsRasterLayer"]
      (by decide) ("Composer", ["QgsComposerItem", "QgsComposerView"]) (by decide)⟩

/-- Claim C6: identifiers without the `Qgs` prefix are absent from every
subgroup; every member of every member list carries the prefix; hence the
emitter's second prefix check filters nothing (its skip branch is
unreachable on extractor output). -/
theorem claim_C6_prefix_excluded (classes : List String) (c : String)
    (hc : c.data.take 3 ≠ ['Q', 'g', 's']) :
    (∀ p ∈ extract_package_subgroups classes, c ∉ p.2) ∧
    (∀ p ∈ extract_package_subgroups classes, ∀ m ∈ p.2,
      m.data.take 3 = ['Q', 'g', 's']) ∧
    (∀ p ∈ extract_package_subgroups classes, p.2.filter hasQgsPrefix = p.2) := by
  refine ⟨?_, fun p hp m hm => mem_extract_sentinel hp hm, ?_⟩
  · intro p hp hmem
    exact hc (mem_extract_sentinel hp hmem)
  · intro p hp
    rw [List.filter_eq_self]
    intro m hm
    simp only [hasQgsPrefix]
    exact beq_iff_eq.mpr (mem_extract_sentinel hp hm)

theorem claim_C6_witness :
    "Foo".data.take 3 ≠ ['Q', 'g', 's'] ∧
    ((∀ p ∈ extract_package_subgroups ["Foo", "QgsAbc"], "Foo" ∉ p.2) ∧
     (∀ p ∈ extract_package_subgroups ["Foo", "QgsAbc"], ∀ m ∈ p.2,
       m.data.take 3 = ['Q', 'g', 's']) ∧
     (∀ p ∈ extract_package_subgroups ["Foo", "QgsAbc"],
       p.2.filter hasQgsPrefix = p.2)) :=
  ⟨by decide, claim_C6_prefix_excluded ["Foo", "QgsAbc"] "Foo" (by decide)⟩

/-- Claim C7: extraction of the empty listing yields exactly the empty
catch-all, and the catch-all key `"other"` is present in the result for
every listing. -/
theorem claim_C7_catch_all_always_present :
    extract_package_subgroups [] = [("other", [])] ∧
    ∀ classes : List String, "other" ∈ odKeys (extract_package_subgroups classes) := by
  refine ⟨by decide, ?_⟩
  intro classes
  rw [odKeys_extract]
  exact (mem_subgroupKeys _ _).mpr (Or.inr rfl)

/-- Claim C8: extraction is total; every listed identifier either derives a
token and is bucketed into some subgroup of the result, or fails a filter
and is excluded from every subgroup — token derivation itself yields `none`
rather than failing. -/
theorem claim_C8_total_bucketing (classes : List String) (c : String)
    (hc : c ∈ classes) :
    (classToken c ≠ none → ∃ p ∈ extract_package_subgroups classes, c ∈ p.2) ∧
    (classToken c = none → ∀ p ∈ extract_package_subgroups classes, c ∉ p.2) := by
  constructor
  · intro hne
    cases hct : classToken c with
    | none => exact absurd hct hne
    | some t =>
      by_cases hmem : t ∈ subgroupKeys classes
      · have hak : assignedKey (subgroupKeys classes) c = some t := by
          rw [assignedKey_some hct, if_pos hmem]
        obtain ⟨p, hp, hpk, -⟩ := extract_entry_exists hmem
        exact ⟨p, hp, (mem_extract_val hp).mpr ⟨hc, by rw [hak, hpk]⟩⟩
      · have hak : assignedKey (subgroupKeys classes) c = some "other" := by
          rw [assignedKey_some hct, if_neg hmem]
        have hoK : "other" ∈ subgroupKeys classes :=
          (mem_subgroupKeys _ _).mpr (Or.inr rfl)
        obtain ⟨p, hp, hpk, -⟩ := extract_entry_exists hoK
        exact ⟨p, hp, (mem_extract_val hp).mpr ⟨hc, by rw [hak, hpk]⟩⟩
  · intro hnone p hp hmem
    rw [mem_extract_val hp] at hmem
    obtain ⟨-, hak⟩ := hmem
    rw [assignedKey, hnone] at hak
    simp at hak

theorem claim_C8_witness :
    "QgsAbc" ∈ ["QgsAbc"] ∧
    ((classToken "QgsAbc" ≠ none →
        ∃ p ∈ extract_package_subgroups ["QgsAbc"], "QgsAbc" ∈ p.2) ∧
     (classToken "QgsAbc" = none →
        ∀ p ∈ extract_package_subgroups ["QgsAbc"], "QgsAbc" ∉ p.2)) :=
  ⟨by decide, claim_C8_total_bucketing ["QgsAbc"] "QgsAbc" (by decide)⟩

/-- Claim C10: every dedicated (non-catch-all) subgroup present in the
result has at least two members, because promotion needs a second token
occurrence and the assignment pass applies the same filters. -/
theorem claim_C10_dedicated_subgroups_have_two_members (classes : List String)
    (p : String × List String) (hp : p ∈ extract_package_subgroups classes)
    (hne : p.1 ≠ "other") : 2 ≤ p.2.length := by
  obtain ⟨hpk, hpv⟩ := extract_entry hp
  have hcnt : 2 ≤ (tokensOf classes).count p.1 := by
    rcases (mem_subgroupKeys _ _).mp hpk with h | h
    · exact h
    · exact absurd h hne
  rw [hpv, ← List.countP_eq_length_filter]
  have hle : classes.countP (fun c => classToken c == some p.1) ≤
      classes.countP (fun c => assignedKey (subgroupKeys classes) c == some p.1) := by
    refine List.countP_mono_left fun c _ hcp => ?_
    have hct : classToken c = some p.1 := eq_of_beq hcp
    rw [assignedKey_some hct, if_pos hpk]
    exact beq_self_eq_true _
  have hcp := count_tokensOf classes p.1
  omega

theorem claim_C10_witness :
    (("Composer", ["QgsComposerItem", "QgsComposerView"]) ∈
        extract_package_subgroups
          ["QgsComposerItem", "QgsComposerView", "QgsRasterLayer"] ∧
     ("Composer", ["QgsComposerItem", "QgsComposerView"]).1 ≠ "other") ∧
    2 ≤ ("Composer", ["QgsComposerItem", "QgsComposerView"]).2.length :=
  ⟨⟨by decide, by decide⟩,
    claim_C10_dedicated_subgroups_have_two_members
      ["QgsComposerItem", "QgsComposerView", "QgsRasterLayer"]
      ("Composer", ["QgsComposerItem", "QgsComposerView"]) (by decide) (by decide)⟩

/-! ### The documentation tree emitter (`generate_docs`) -/

/-- Root index header string constant from the source. -/
def document_header : String :=
  "\n:tocdepth: 1\n\nWelcome to the QGIS Python API documentation project!\n" ++
    ⟨List.replicate 62 '='⟩ ++
    "\n\n.. toctree::\n   :maxdepth: 1\n   :caption: Contents:\n\n"

/-- Root index footer string constant from the source. -/
def document_footer : String :=
  "\nIndices and tables\n" ++ ⟨List.replicate 18 '='⟩ ++
    "\n\n* :ref:`genindex`\n* :ref:`modindex`\n* :ref:`search`"

/-- Package index header string constant from the source. -/
def package_header : String :=
  "\n\nPACKAGENAME\n" ++ ⟨List.replicate 35 '='⟩ ++
    "\n\n.. toctree::\n   :maxdepth: 2\n   :caption: PACKAGENAME:\n\n"

/-- Subgroup index header string constant from the source. -/
def sub_group_header : String :=
  "\nSUBGROUPNAME\n" ++ ⟨List.replicate 35 '-'⟩ ++
    "\n\n.. toctree::\n   :maxdepth: 1\n   :caption: SUBGROUPNAME:\n\n"

/-- Python `header.replace('PACKAGENAME', repl)`: leftmost, non-overlapping
replacement of every occurrence of the literal `PACKAGENAME`. -/
def replacePACKAGENAME (repl : List Char) : List Char → List Char
  | 'P' :: 'A' :: 'C' :: 'K' :: 'A' :: 'G' :: 'E' :: 'N' :: 'A' :: 'M' :: 'E' :: rest =>
      repl ++ replacePACKAGENAME repl rest
  | c :: rest => c :: replacePACKAGENAME repl rest
  | [] => []

/-- Python `header.replace('SUBGROUPNAME', repl)`. -/
def replaceSUBGROUPNAME (repl : List Char) : List Char → List Char
  | 'S' :: 'U' :: 'B' :: 'G' :: 'R' :: 'O' :: 'U' :: 'P' :: 'N' :: 'A' :: 'M' :: 'E' :: rest =>
      repl ++ replaceSUBGROUPNAME repl rest
  | c :: rest => c :: replaceSUBGROUPNAME repl rest
  | [] => []

/-- First character of a `string.Template` placeholder name,
`(?a:[_a-zA-Z])`. -/
def idStart (c : Char) : Bool := c.isAlpha || c = '_'

/-- Continuation character of a placeholder name, `(?a:[_a-zA-Z0-9])`. -/
def idCont (c : Char) : Bool := c.isAlpha || c.isDigit || c = '_'

/-- Greedily split off the longest leading run of placeholder-name
characters. -/
def scanId : List Char → List Char × List Char
  | [] => ([], [])
  | c :: rest =>
      if idCont c then ((c :: (scanId rest).1), (scanId rest).2)
      else ([], c :: rest)

theorem scanId_length_le (s : List Char) : (scanId s).2.length ≤ s.length := by
  induction s with
  | nil => simp [scanId]
  | cons c rest ih =>
    rw [scanId]
    by_cases hc : idCont c
    · simp only [hc, if_true]
      exact Nat.le_succ_of_le ih
    · simp [hc]

theorem scanId_lt (s : List Char) : (scanId s).2.length < s.length + 1 + 1 := by
  have h1 := scanId_length_le s
  omega

theorem scanId_tail_lt (s : List Char) :
    (scanId s).2.length - 1 < s.length + 1 + 1 := by
  have h1 := scanId_length_le s
  omega

/-- The opening-brace delimiter character of `string.Template` braced
placeholders, as a code point. -/
def lbraceChar : Char := Char.ofNat 123

/-- The closing-brace delimiter character. -/
def rbraceChar : Char := Char.ofNat 125

/-- The substitution mapping built by the emitter:
`PACKAGE ↦ package_name`, `SUBGROUP ↦ package_subgroup`,
`CLASS ↦ class_name`; any other placeholder name raises `KeyError` in
Python, modelled as `none`. -/
def substLookup (pkg sg cls : List Char) (name : List Char) : Option (List Char) :=
  if name = "PACKAGE".data then some pkg
  else if name = "SUBGROUP".data then some sg
  else if name = "CLASS".data then some cls
  else none

/-- `string.Template.substitute` over the character list of the template:
`$$` is an escaped dollar, `$name` and the brace-delimited form substitute a
placeholder, a dollar not followed by a valid placeholder raises
`ValueError` and an unknown placeholder name raises `KeyError` — both
modelled as `none`; everything else is copied verbatim. -/
def substituteAux (pkg sg cls : List Char) : List Char → Option (List Char)
  | [] => some []
  | '$' :: rest =>
      match rest with
      | [] => none
      | d :: rest2 =>
          if d = '$' then
            (substituteAux pkg sg cls rest2).map (fun out => '$' :: out)
          else if d = lbraceChar then
            if (scanId rest2).1 ≠ [] ∧ idStart ((scanId rest2).1.headD ' ') = true ∧
                (scanId rest2).2.headD ' ' = rbraceChar ∧ (scanId rest2).2 ≠ [] then
              match substLookup pkg sg cls (scanId rest2).1 with
              | some v =>
                  (substituteAux pkg sg cls (scanId rest2).2.tail).map (fun out => v ++ out)
              | none => none
            else none
          else if idStart d then
            match substLookup pkg sg cls (d :: (scanId rest2).1) with
            | some v => (substituteAux pkg sg cls (scanId rest2).2).map (fun out => v ++ out)
            | none => none
          else none
  | c :: rest => (substituteAux pkg sg cls rest).map (fun out => c :: out)
  termination_by l => l.length
  decreasing_by
    all_goals simp_wf
    all_goals first
      | omega
      | exact scanId_tail_lt _
      | exact scanId_lt _

/-- `template.substitute(PACKAGE=package_name, SUBGROUP=package_subgroup,
CLASS=class_name)`. -/
def substitute (template_text package_name package_subgroup class_name : String) :
    Option String :=
  (substituteAux package_name.data package_subgroup.data class_name.data
    template_text.data).map (fun out => ⟨out⟩)

/-- Sequence a fallible map over a list, failing at the first failure —
the behaviour of the emitter's loop when `substitute` raises. -/
def optionMapM {α β : Type} (f : α → Option β) : List α → Option (List β)
  | [] => some []
  | a :: l =>
      match f a, optionMapM f l with
      | some b, some bs => some (b :: bs)
      | _, _ => none

theorem optionMapM_mem {α β : Type} {f : α → Option β} {l : List α} {ys : List β}
    (h : optionMapM f l = some ys) : ∀ y ∈ ys, ∃ x ∈ l, f x = some y := by
  induction l generalizing ys with
  | nil =>
    rw [optionMapM] at h
    intro y hy
    rw [← Option.some_inj.mp h] at hy
    simp at hy
  | cons a l ih =>
    rw [optionMapM] at h
    intro y hy
    cases hfa : f a with
    | none => rw [hfa] at h; simp at h
    | some b =>
      cases hrest : optionMapM f l with
      | none => rw [hfa, hrest] at h; simp at h
      | some bs =>
        rw [hfa, hrest] at h
        rw [← Option.some_inj.mp h] at hy
        rcases List.mem_cons.mp hy with rfl | hy
        · exact ⟨a, List.mem_cons_self a l, hfa⟩
        · obtain ⟨x, hx, hfx⟩ := ih hrest y hy
          exact ⟨x, List.mem_cons_of_mem a hx, hfx⟩

/-- Accumulated contents of the root index `api/index.rst`: the fixed
header, one `   <package>/index` line per package in declared order, then
the fixed footer. -/
def rootIndexContent (package_names : List String) : String :=
  document_header ++
    String.join (package_names.map (fun package_name =>
      "   " ++ package_name ++ "/index\n")) ++
    document_footer

/-- Accumulated contents of a package index: the package header with
`PACKAGENAME` replaced, then one `   <subgroup>/index` line per subgroup in
mapping order. -/
def packageIndexContent (package_name : String) (subgroup_names : List String) : String :=
  ⟨replacePACKAGENAME package_name.data package_header.data⟩ ++
    String.join (subgroup_names.map (fun g => "   " ++ g ++ "/index\n"))

/-- Accumulated contents of a subgroup index: the subgroup header with
`SUBGROUPNAME` replaced, then one `   <class>` line per member passing the
emitter's redundant prefix re-check. -/
def subgroupIndexContent (package_subgroup : String) (classes : List String) : String :=
  ⟨replaceSUBGROUPNAME package_subgroup.data sub_group_header.data⟩ ++
    String.join ((classes.filter hasQgsPrefix).map (fun class_name =>
      "   " ++ class_name ++ "\n"))

/-- Files written for one subgroup of one package: its index file plus one
leaf file per member passing the prefix re-check, whose contents are the
substituted template followed by the newline `print` appends. -/
def subgroupFiles (template_text package_name : String) (sg : String × List String) :
    Option (List (String × String)) :=
  (optionMapM (fun class_name =>
      (substitute template_text package_name sg.1 class_name).map
        (fun body =>
          ("api/" ++ (package_name ++ "/" ++ sg.1 ++ "/" ++ class_name ++ ".rst"),
            body ++ "\n")))
    (sg.2.filter hasQgsPrefix)).map
    (fun leaves =>
      ("api/" ++ (package_name ++ "/" ++ sg.1 ++ "/index.rst"),
        subgroupIndexContent sg.1 sg.2) :: leaves)

/-- Files written for one package: its index file plus the files of each of
its subgroups, in mapping order. -/
def packageFiles (template_text : String) (pkg : String × List String) :
    Option (List (String × String)) :=
  (optionMapM (subgroupFiles template_text pkg.1) (extract_package_subgroups pkg.2)).map
    (fun ls =>
      ("api/" ++ (pkg.1 ++ "/index.rst"),
        packageIndexContent pkg.1 (odKeys (extract_package_subgroups pkg.2))) :: ls.flatten)

/-- All files written by one run of the emitter: the root index plus every
package's files.  The result is a function of the namespace listings and the
template alone. -/
def emittedTree (packages : List (String × List String)) (template_text : String) :
    Option (List (String × String)) :=
  (optionMapM (packageFiles template_text) packages).map
    (fun ls => ("api/index.rst", rootIndexContent (packages.map Prod.fst)) :: ls.flatten)

/-- A path lies inside directory `dir` (or is `dir` itself) — the reach of
`rmtree(dir)`. -/
def underDir (dir path : String) : Bool :=
  (dir ++ "/").data.isPrefixOf path.data || path == dir

/-- Effect of the destructive `rmtree('build', ...)` and
`rmtree('api', ...)` calls on a file system modelled as a list of
(path, contents) pairs. -/
def clearFS (fs : List (String × String)) : List (String × String) :=
  fs.filter (fun e => !(underDir "build" e.1 || underDir "api" e.1))

/-- Translation of `generate_docs`, parameterised by the namespace listings
(the `packages` dictionary together with each package's `dir` listing), the
text of `rst/qgis_pydoc_template.txt`, and the pre-existing file system.
Directories are implicit in the paths; progress output to stdout is not part
of the file system; a raised substitution error yields `none`. -/
def generate_docs (packages : List (String × List String)) (template_text : String)
    (fs : List (String × String)) : Option (List (String × String)) :=
  (emittedTree packages template_text).map (fun out => out ++ clearFS fs)

/-! ### Claim C9: idempotence of the emitter -/

theorem isPrefixOf_append_self (l r : List Char) : l.isPrefixOf (l ++ r) = true := by
  induction l with
  | nil => simp [List.isPrefixOf]
  | cons c l ih => simp [List.isPrefixOf, ih]

theorem underDir_api_append (s : String) : underDir "api" ("api/" ++ s) = true := by
  rw [underDir, Bool.or_eq_true]
  left
  have h1 : ("api" ++ "/" : String).data = "api/".data := by decide
  rw [h1, String.data_append]
  exact isPrefixOf_append_self _ _

/-- Every file the emitter writes lies under the `api` directory. -/
theorem emittedTree_paths {packages : List (String × List String)}
    {template_text : String} {out : List (String × String)}
    (h : emittedTree packages template_text = some out) :
    ∀ e ∈ out, underDir "api" e.1 = true := by
  unfold emittedTree at h
  rw [Option.map_eq_some'] at h
  obtain ⟨ls, hls, hout⟩ := h
  intro e he
  rw [← hout] at he
  rcases List.mem_cons.mp he with rfl | he
  · show underDir "api" "api/index.rst" = true
    decide
  · obtain ⟨l', hl', hel⟩ := List.mem_flatten.mp he
    obtain ⟨pkg, -, hpf⟩ := optionMapM_mem hls l' hl'
    unfold packageFiles at hpf
    rw [Option.map_eq_some'] at hpf
    obtain ⟨ls2, hls2, hl'eq⟩ := hpf
    rw [← hl'eq] at hel
    rcases List.mem_cons.mp hel with rfl | hel
    · exact underDir_api_append _
    · obtain ⟨l2, hl2, hel2⟩ := List.mem_flatten.mp hel
      obtain ⟨sg, -, hsf⟩ := optionMapM_mem hls2 l2 hl2
      unfold subgroupFiles at hsf
      rw [Option.map_eq_some'] at hsf
      obtain ⟨leaves, hleaves, hl2eq⟩ := hsf
      rw [← hl2eq] at hel2
      rcases List.mem_cons.mp hel2 with rfl | hel2
      · exact underDir_api_append _
      · obtain ⟨class_name, -, hleaf⟩ := optionMapM_mem hleaves e hel2
        rw [Option.map_eq_some'] at hleaf
        obtain ⟨body, -, heq⟩ := hleaf
        rw [← heq]
        exact underDir_api_append _

theorem clearFS_append (fs₁ fs₂ : List (String × String)) :
    clearFS (fs₁ ++ fs₂) = clearFS fs₁ ++ clearFS fs₂ :=
  List.filter_append _ _

theorem clearFS_clearFS (fs : List (String × String)) :
    clearFS (clearFS fs) = clearFS fs := by
  simp [clearFS, List.filter_filter]

theorem clearFS_emitted {packages : List (String × List String)}
    {template_text : String} {out : List (String × String)}
    (h : emittedTree packages template_text = some out) : clearFS out = [] := by
  rw [clearFS, List.filter_eq_nil_iff]
  intro e he
  have hp := emittedTree_paths h e he
  simp [hp]

/-- Claim C9: running the tree emitter twice in succession against the same
namespace listings and template produces byte-identical output trees — the
destructive clear removes exactly the previously generated `api` tree, and
the emitted tree is a function of the inputs alone. -/
theorem claim_C9_emitter_idempotent (packages : List (String × List String))
    (template_text : String) (fs fs' : List (String × String))
    (h : generate_docs packages template_text fs = some fs') :
    generate_docs packages template_text fs' = some fs' := by
  unfold generate_docs at h ⊢
  rw [Option.map_eq_some'] at h
  obtain ⟨out, hout, hfs'⟩ := h
  subst hfs'
  rw [hout]
  show some (out ++ clearFS (out ++ clearFS fs)) = some (out ++ clearFS fs)
  rw [clearFS_append, clearFS_emitted hout, List.nil_append, clearFS_clearFS]

theorem claim_C9_witness :
    generate_docs [] "t" [("api/old.rst", "x"), ("keep.txt", "y")] =
      some [("api/index.rst", rootIndexContent []), ("keep.txt", "y")] ∧
    generate_docs [] "t" [("api/index.rst", rootIndexContent []), ("keep.txt", "y")] =
      some [("api/index.rst", rootIndexContent []), ("keep.txt", "y")] := by
  have h1 : generate_docs [] "t" [("api/old.rst", "x"), ("keep.txt", "y")] =
      some [("api/index.rst", rootIndexContent []), ("keep.txt", "y")] := by decide
  exact ⟨h1, claim_C9_emitter_idempotent [] "t" _ _ h1⟩
